import Mathlib

/-!
# Verification of the `explodesh` TOML filesystem codec

A shallow embedding of the core of `explodesh`:

* `src/implode.rs` — reconstructing a `toml::Value` from a filesystem tree
  (`deserialize_any`, the five scalar deserializers, `deserialize_array`,
  `deserialize_table`);
* `src/explode.rs` — serializing a `toml::Value` onto the filesystem
  (`visit_value`, `visit_table`, `visit_array`, `visit_serialize`).

Machine integers are modelled as `Nat`/`Int` with explicit range checks
(`i64`, `usize`), `f64` values are modelled by exact rationals plus the
special values (rounding of decimal literals to binary floats is abstracted
away; no theorem below depends on rounding), and Rust `Result`/panics are
modelled by an explicit three-way result type.
-/

/-- The set of characters trimmed by Rust's `str::trim_end`
(`char::is_whitespace`, i.e. the Unicode `White_Space` property). -/
def isRustWhitespace (c : Char) : Bool :=
  c = ' ' || c = '\t' || c = '\n' || c = Char.ofNat 0xb || c = Char.ofNat 0xc ||
  c = '\r' || c = Char.ofNat 0x85 || c = Char.ofNat 0xa0 ||
  c = Char.ofNat 0x1680 ||
  (Char.ofNat 0x2000 ≤ c && c ≤ Char.ofNat 0x200a) ||
  c = Char.ofNat 0x2028 || c = Char.ofNat 0x2029 || c = Char.ofNat 0x202f ||
  c = Char.ofNat 0x205f || c = Char.ofNat 0x3000

/-- Rust `str::trim_end`: remove all trailing whitespace characters.
Used in `deserialize_any` (implode.rs line 16: `contents.trim_end()`). -/
def trimEnd (s : String) : String :=
  ⟨(s.data.reverse.dropWhile isRustWhitespace).reverse⟩

/-- Decimal digit test (`c.is_ascii_digit()` as used by Rust's integer and
float parsers). -/
def isDecDigit (c : Char) : Bool := '0' ≤ c && c ≤ '9'

/-- Numeric value of a list of decimal digits, most significant first. -/
def digitsToNat (l : List Char) : Nat :=
  l.foldl (fun acc c => acc * 10 + (c.toNat - '0'.toNat)) 0

/-- Parse a nonempty all-digit string into a `Nat`
(the digits part of Rust's `from_str` for unsigned integers; no bound yet). -/
def parseNatDigits (l : List Char) : Option Nat :=
  if l ≠ [] ∧ l.all isDecDigit then some (digitsToNat l) else none

/-- Rust `"…".parse::<usize>()` (64-bit): optional leading `+`, then decimal
digits, value below `2^64`; anything else is an error.  This is the parse
applied to each file name in `deserialize_array` (implode.rs line 137). -/
def parseUsize (s : String) : Option Nat :=
  let go : List Char → Option Nat := fun l =>
    (parseNatDigits l).bind fun n => if n < 2 ^ 64 then some n else none
  match s.data with
  | '+' :: rest => go rest
  | l => go l

/-- Rust `"…".parse::<i64>()`: optional sign, decimal digits, value within
the `i64` range. -/
def parseI64 (s : String) : Option Int :=
  match s.data with
  | '+' :: rest =>
      (parseNatDigits rest).bind fun n =>
        if n ≤ 2 ^ 63 - 1 then some (n : Int) else none
  | '-' :: rest =>
      (parseNatDigits rest).bind fun n =>
        if n ≤ 2 ^ 63 then some (-(n : Int)) else none
  | l =>
      (parseNatDigits l).bind fun n =>
        if n ≤ 2 ^ 63 - 1 then some (n : Int) else none

/-- Model of an `f64` value: exact rational for finite values (decimal-to-
binary rounding abstracted away), plus infinities and NaN. -/
inductive F64 where
  | finite (q : ℚ)
  | infPos
  | infNeg
  | nan
deriving DecidableEq

/-- Case-insensitive match of a character list against a lowercase word,
as Rust's float parser does for `inf` / `infinity` / `nan`. -/
def eqCaseInsensitive (l : List Char) (word : List Char) : Bool :=
  l.map Char.toLower == word

/-- Split a leading run of decimal digits. -/
def spanDigits (l : List Char) : List Char × List Char :=
  (l.takeWhile isDecDigit, l.dropWhile isDecDigit)

/-- Parse the exponent part `[eE][+-]?digits+` (which must consume the whole
remaining input) of a float literal, returning the signed exponent. -/
def parseExponent (l : List Char) : Option Int :=
  match l with
  | e :: rest =>
      if e = 'e' ∨ e = 'E' then
        let (sgn, rest') : Int × List Char :=
          match rest with
          | '+' :: r => (1, r)
          | '-' :: r => (-1, r)
          | r => (1, r)
        (parseNatDigits rest').map fun n => sgn * (n : Int)
      else none
  | [] => none

/-- Mantissa of a float literal: `digits [. digits]` or `. digits`, with at
least one digit overall; returns its exact rational value and the rest. -/
def parseMantissa (l : List Char) : Option (ℚ × List Char) :=
  let (ip, r1) := spanDigits l
  let (fp, r2) :=
    match r1 with
    | '.' :: r => spanDigits r
    | _ => ([], r1)
  if ip = [] ∧ fp = [] then none
  else some ((digitsToNat ip : ℚ) + (digitsToNat fp : ℚ) / (10 : ℚ) ^ fp.length, r2)

/-- Rust `"…".parse::<f64>()`: optional sign, then (case-insensitively)
`inf`/`infinity`/`nan`, or a decimal mantissa with optional exponent.  The
value of a finite literal is modelled exactly as a rational
(decimal-to-binary rounding and overflow to infinity are abstracted away;
no theorem below depends on either). -/
def parseF64 (s : String) : Option F64 :=
  let (sgn, body) : ℚ × List Char :=
    match s.data with
    | '+' :: r => (1, r)
    | '-' :: r => (-1, r)
    | r => (1, r)
  if eqCaseInsensitive body ['i', 'n', 'f'] ∨
     eqCaseInsensitive body ['i', 'n', 'f', 'i', 'n', 'i', 't', 'y'] then
    some (if sgn = 1 then F64.infPos else F64.infNeg)
  else if eqCaseInsensitive body ['n', 'a', 'n'] then some F64.nan
  else
    (parseMantissa body).bind fun (m, rest) =>
      match rest with
      | [] => some (F64.finite (sgn * m))
      | _ => (parseExponent rest).map fun e => F64.finite (sgn * m * (10 : ℚ) ^ e)

/-- Timezone offset of an RFC-3339-style datetime. -/
inductive TzOffset where
  | utc
  | plus (h m : Nat)
  | minus (h m : Nat)
deriving DecidableEq

/-- Modelled from the TOML datetime grammar of the external document-format
library (`toml::value::Datetime`, spec §4.3/§6: "DateTime → RFC-3339-style
literal"): an optional full date, an optional time with fractional digits,
and an optional offset (only together with both date and time). -/
structure Datetime where
  date : Option (Nat × Nat × Nat)
  time : Option (Nat × Nat × Nat × List Char)
  offset : Option TzOffset
deriving DecidableEq

/-- Parse exactly `n` decimal digits, returning their value and the rest. -/
def parseFixedDigits (n : Nat) (l : List Char) : Option (Nat × List Char) :=
  let pre := l.take n
  if pre.length = n ∧ pre.all isDecDigit then some (digitsToNat pre, l.drop n)
  else none

/-- Parse `YYYY-MM-DD` with basic range validation. -/
def parseFullDate (l : List Char) : Option ((Nat × Nat × Nat) × List Char) :=
  (parseFixedDigits 4 l).bind fun (y, r1) =>
    match r1 with
    | '-' :: r2 =>
        (parseFixedDigits 2 r2).bind fun (mo, r3) =>
          match r3 with
          | '-' :: r4 =>
              (parseFixedDigits 2 r4).bind fun (d, r5) =>
                if 1 ≤ mo ∧ mo ≤ 12 ∧ 1 ≤ d ∧ d ≤ 31 then some ((y, mo, d), r5)
                else none
          | _ => none
    | _ => none

/-- Parse `HH:MM:SS[.digits+]` with basic range validation. -/
def parsePartialTime (l : List Char) : Option ((Nat × Nat × Nat × List Char) × List Char) :=
  (parseFixedDigits 2 l).bind fun (h, r1) =>
    match r1 with
    | ':' :: r2 =>
        (parseFixedDigits 2 r2).bind fun (mi, r3) =>
          match r3 with
          | ':' :: r4 =>
              (parseFixedDigits 2 r4).bind fun (se, r5) =>
                if h ≤ 23 ∧ mi ≤ 59 ∧ se ≤ 60 then
                  match r5 with
                  | '.' :: r6 =>
                      let (frac, r7) := spanDigits r6
                      if frac = [] then none else some ((h, mi, se, frac), r7)
                  | _ => some ((h, mi, se, []), r5)
                else none
          | _ => none
    | _ => none

/-- Parse `Z`, `z`, or `±HH:MM`. -/
def parseTzOffset (l : List Char) : Option (TzOffset × List Char) :=
  match l with
  | 'Z' :: r => some (.utc, r)
  | 'z' :: r => some (.utc, r)
  | c :: r =>
      if c = '+' ∨ c = '-' then
        (parseFixedDigits 2 r).bind fun (h, r1) =>
          match r1 with
          | ':' :: r2 =>
              (parseFixedDigits 2 r2).bind fun (m, r3) =>
                if h ≤ 23 ∧ m ≤ 59 then
                  some (if c = '+' then TzOffset.plus h m else TzOffset.minus h m, r3)
                else none
          | _ => none
      else none
  | [] => none

/-- Modelled from the TOML datetime grammar (`toml::value::Datetime::from_str`
of the external library): offset datetime, local datetime, local date, or
local time; date and time separated by `T`/`t`/space. -/
def parseDatetime (s : String) : Option Datetime :=
  match parseFullDate s.data with
  | some (d, rest) =>
      match rest with
      | [] => some ⟨some d, none, none⟩
      | sep :: r2 =>
          if sep = 'T' ∨ sep = 't' ∨ sep = ' ' then
            (parsePartialTime r2).bind fun (t, r3) =>
              match r3 with
              | [] => some ⟨some d, some t, none⟩
              | _ =>
                  (parseTzOffset r3).bind fun (off, r4) =>
                    if r4 = [] then some ⟨some d, some t, some off⟩ else none
          else none
  | none =>
      (parsePartialTime s.data).bind fun (t, r) =>
        if r = [] then some ⟨none, some t, none⟩ else none

/-- The six-variant `toml::Value` data model (spec §3). A `Table` is modelled
as an association list of unique keys in map-iteration order. -/
inductive Value where
  | boolean (b : Bool)
  | string (s : String)
  | integer (n : Int)
  | float (f : F64)
  | datetime (d : Datetime)
  | array (xs : List Value)
  | table (t : List (String × Value))

/-- A filesystem node: a file holding text, or a directory holding named
children.  The child list order models the (arbitrary) order in which
`fs::read_dir` yields the entries. -/
inductive FST where
  | file (contents : String)
  | dir (entries : List (String × FST))

/-- Errors returned (as `anyhow::Result` errors) by the imploder. -/
inductive Err where
  /-- "Could not parse TOML value for file {path}" (implode.rs line 22). -/
  | scalarInference (path : List String)
  /-- "Invalid Unsigned Integer" (implode.rs line 138). -/
  | invalidInteger
  /-- "Not a valid TOML array" (implode.rs line 158). -/
  | invalidArray
deriving DecidableEq

/-- Outcome of running a piece of Rust code: a returned value, a returned
error, or a panic (`unwrap` on an error / out-of-bounds indexing). -/
inductive Res (α : Type) where
  | ok (a : α)
  | err (e : Err)
  | panic

/-- `deserialize_bool` (implode.rs lines 44-46): `input.parse::<bool>()`,
which accepts exactly `"true"` and `"false"`. -/
def deserialize_bool (input : String) : Option Value :=
  if input = "true" then some (.boolean true)
  else if input = "false" then some (.boolean false)
  else none

/-- The capture of the regex `^"(.+)"$` used by `deserialize_str`:
the whole input must be a double quote, a nonempty run of characters none
of which is a newline (`.` does not match `'\n'`), and a closing quote. -/
def strCapture (l : List Char) : Option (List Char) :=
  match l with
  | '"' :: rest =>
      match rest.getLast? with
      | some '"' =>
          let mid := rest.dropLast
          if mid ≠ [] ∧ mid.all (· ≠ '\n') then some mid else none
      | _ => none
  | _ => none

/-- `deserialize_str` (implode.rs lines 55-67): match the regex `^"(.+)"$`
and take the first capture group verbatim. -/
def deserialize_str (input : String) : Option Value :=
  (strCapture input.data).map fun mid => .string ⟨mid⟩

/-- `deserialize_i64` (implode.rs lines 76-78): `input.parse::<i64>()`. -/
def deserialize_i64 (input : String) : Option Value :=
  (parseI64 input).map .integer

/-- `deserialize_f64` (implode.rs lines 87-89): `input.parse::<f64>()`. -/
def deserialize_f64 (input : String) : Option Value :=
  (parseF64 input).map .float

/-- `deserialize_datetime` (implode.rs lines 100-104):
`toml::value::Datetime::from_str(input)`. -/
def deserialize_datetime (input : String) : Option Value :=
  (parseDatetime input).map .datetime

/-- The file branch of `deserialize_any` (implode.rs lines 13-23): trim
trailing whitespace, then try the five scalar grammars in order —
Boolean, String, Integer, Float, DateTime — stopping at the first success;
when all five fail, the error reports the offending path. -/
def inferScalarFile (contents : String) (path : List String) : Res Value :=
  let c := trimEnd contents
  match deserialize_bool c <|> deserialize_str c <|> deserialize_i64 c <|>
        deserialize_f64 c <|> deserialize_datetime c with
  | some v => .ok v
  | none => .err (.scalarInference path)

/-- The name-parsing pass of `deserialize_array` (implode.rs lines 128-142):
parse every file name as a `usize` index, short-circuiting on the first
failure (the `collect::<Result<_,_>>()`), keeping `(index, entry)` pairs. -/
def parseEntries : List (String × FST) → Option (List (Nat × String × FST))
  | [] => some []
  | (n, t) :: rest =>
      match parseUsize n with
      | some k => (parseEntries rest).map (fun l => (k, n, t) :: l)
      | none => none

/-- The key order used by `indexed_files.sort_by(|(a,_),(b,_)| a.cmp(b))`
(implode.rs line 143). -/
def keyLE (a b : Nat × String × FST) : Prop := a.1 ≤ b.1

instance : DecidableRel keyLE := fun a b => inferInstanceAs (Decidable (a.1 ≤ b.1))

instance : IsTotal (Nat × String × FST) keyLE := ⟨fun a b => Nat.le_total a.1 b.1⟩

instance : IsTrans (Nat × String × FST) keyLE := ⟨fun _ _ _ => Nat.le_trans⟩

/-- The sort of `deserialize_array` (implode.rs line 143): sort the indexed
entries by parsed index. -/
def sortByKey (l : List (Nat × String × FST)) : List (Nat × String × FST) :=
  l.insertionSort keyLE

/-- Rust `Vec::dedup` (implode.rs line 146): remove consecutive repeated
elements, keeping the first element of each run. -/
def dedupConsec (l : List Nat) : List Nat := l.destutter (· ≠ ·)

/-- Members of a successfully parsed entry list are members of the original
entry list, with their parsed key. -/
theorem parseEntries_mem {files : List (String × FST)}
    {il : List (Nat × String × FST)} (h : parseEntries files = some il) :
    ∀ x ∈ il, (x.2.1, x.2.2) ∈ files ∧ parseUsize x.2.1 = some x.1 := by
  induction files generalizing il with
  | nil =>
      simp only [parseEntries, Option.some.injEq] at h
      subst h; intro x hx; cases hx
  | cons e rest ih =>
      obtain ⟨n, t⟩ := e
      simp only [parseEntries] at h
      cases hk : parseUsize n with
      | none => rw [hk] at h; cases h
      | some k =>
          rw [hk] at h
          cases hrest : parseEntries rest with
          | none => rw [hrest] at h; cases h
          | some l' =>
              rw [hrest] at h
              simp only [Option.map_some', Option.some.injEq] at h
              subst h
              intro x hx
              rcases List.mem_cons.mp hx with hx | hx
              · subst hx; exact ⟨List.mem_cons_self _ _, hk⟩
              · obtain ⟨h1, h2⟩ := ih hrest x hx
                exact ⟨List.mem_cons_of_mem _ h1, h2⟩

/-- A successfully parsed entry list is the map of the original entries with
their parsed keys adjoined. -/
theorem parseEntries_eq_map {files : List (String × FST)}
    {il : List (Nat × String × FST)} (h : parseEntries files = some il) :
    il = files.map (fun e => ((parseUsize e.1).getD 0, e.1, e.2)) := by
  induction files generalizing il with
  | nil => simp only [parseEntries, Option.some.injEq] at h; subst h; rfl
  | cons e rest ih =>
      obtain ⟨n, t⟩ := e
      simp only [parseEntries] at h
      cases hk : parseUsize n with
      | none => rw [hk] at h; cases h
      | some k =>
          rw [hk] at h
          cases hrest : parseEntries rest with
          | none => rw [hrest] at h; cases h
          | some l' =>
              rw [hrest] at h
              simp only [Option.map_some', Option.some.injEq] at h
              subst h
              simp [ih hrest, hk]

/-- `sizeOf` of a list is invariant under permutation. -/
theorem sizeOf_perm {α : Type} [SizeOf α] {l l' : List α} (h : l.Perm l') :
    sizeOf l = sizeOf l' := by
  induction h with
  | nil => rfl
  | cons x _ ih => simp only [List.cons.sizeOf_spec, ih]
  | swap x y l => simp only [List.cons.sizeOf_spec]; omega
  | trans _ _ ih1 ih2 => omega

/-- The subtrees carried through parsing and sorting are bounded by the
original entry list: used for the termination of the imploder. -/
theorem sizeOf_sorted_le {files : List (String × FST)}
    {il : List (Nat × String × FST)} (h : parseEntries files = some il) :
    sizeOf ((sortByKey il).map (fun x => x.2.2)) ≤ sizeOf files := by
  have h1 : ((sortByKey il).map (fun x => x.2.2)).Perm (il.map (fun x => x.2.2)) :=
    (List.perm_insertionSort keyLE il).map _
  have h2 : il.map (fun x => x.2.2) = files.map (fun e => e.2) := by
    rw [parseEntries_eq_map h, List.map_map]; rfl
  rw [sizeOf_perm h1, h2]
  clear h1 h2 h
  induction files with
  | nil => simp
  | cons e rest ih =>
      obtain ⟨n, t⟩ := e
      simp only [List.map_cons, List.cons.sizeOf_spec, Prod.mk.sizeOf_spec]
      omega

mutual

/-- `deserialize_any` (implode.rs lines 11-33): a file is run through the
scalar-inference chain; a directory is tried as an array and, if that
returns an error (`or_else`), as a table.  A panic in `deserialize_array`
propagates (Rust panics are not caught by `or_else`). -/
def deserialize_any : FST → List String → Res Value
  | .file contents, path => inferScalarFile contents path
  | .dir entries, path =>
      match deserialize_array entries path with
      | .ok v => .ok v
      | .panic => .panic
      | .err _ => tableGo entries path []
termination_by t _ => (sizeOf t, 3, 0)
decreasing_by
  · apply Prod.Lex.left; simp [FST.dir.sizeOf_spec]
  · apply Prod.Lex.left; simp [FST.dir.sizeOf_spec]

/-- `deserialize_array` (implode.rs lines 124-160): parse all file names as
indices (error on any failure), sort by index, `dedup`, then check
`indexes[0] == 0 && indexes[last] == files.len()-1 && indexes.len() ==
files.len()`.  On an empty directory `indexes[0]` is an out-of-bounds
access: a panic.  On success each child is deserialized with `.unwrap()`
(`buildArr`); on a failed check the result is the error
"Not a valid TOML array". -/
def deserialize_array (files : List (String × FST)) (path : List String) :
    Res Value :=
  match hp : parseEntries files with
  | none => .err .invalidInteger
  | some indexed =>
      match dedupConsec ((sortByKey indexed).map (fun x => x.1)) with
      | [] => .panic
      | i0 :: rest =>
          if i0 = 0 ∧ (i0 :: rest).getLast (List.cons_ne_nil _ _) = files.length - 1 ∧
              (i0 :: rest).length = files.length then
            buildArr (sortByKey indexed) path []
          else .err .invalidArray
termination_by (sizeOf files, 2, 0)
decreasing_by
  rcases lt_or_eq_of_le (sizeOf_sorted_le hp) with h | h
  · exact Prod.Lex.left _ _ h
  · rw [h]; exact Prod.Lex.right _ (Prod.Lex.left _ _ (by omega))

/-- The array-building loop of `deserialize_array` (implode.rs lines
151-154): deserialize each sorted child with `.unwrap()` — any child error
(or panic) is a panic. -/
def buildArr : List (Nat × String × FST) → List String → List Value → Res Value
  | [], _, acc => .ok (.array acc.reverse)
  | (_, name, sub) :: rest, path, acc =>
      match deserialize_any sub (path ++ [name]) with
      | .ok v => buildArr rest path (v :: acc)
      | .err _ => .panic
      | .panic => .panic
termination_by l _ _ => (sizeOf (l.map (fun x => x.2.2)), 1, 0)
decreasing_by
  · apply Prod.Lex.left; simp only [List.map_cons, List.cons.sizeOf_spec]; omega
  · apply Prod.Lex.left; simp only [List.map_cons, List.cons.sizeOf_spec]; omega

/-- The loop of `deserialize_table` (implode.rs lines 178-192): insert each
child name with its deserialized value, propagating child errors with `?`. -/
def tableGo : List (String × FST) → List String → List (String × Value) → Res Value
  | [], _, acc => .ok (.table acc.reverse)
  | (n, sub) :: rest, path, acc =>
      match deserialize_any sub (path ++ [n]) with
      | .ok v => tableGo rest path ((n, v) :: acc)
      | .err e => .err e
      | .panic => .panic
termination_by l _ _ => (sizeOf l, 2, 1)
decreasing_by
  · apply Prod.Lex.left
    simp only [List.cons.sizeOf_spec, Prod.mk.sizeOf_spec]; omega
  · apply Prod.Lex.left; simp only [List.cons.sizeOf_spec]; omega

end

/-- Unfolding equation for `deserialize_array` without the dependent match
introduced by the termination argument. -/
theorem deserialize_array_eq (files : List (String × FST)) (path : List String) :
    deserialize_array files path =
      match parseEntries files with
      | none => .err .invalidInteger
      | some indexed =>
          match dedupConsec ((sortByKey indexed).map (fun x => x.1)) with
          | [] => .panic
          | i0 :: rest =>
              if i0 = 0 ∧ (i0 :: rest).getLast (List.cons_ne_nil _ _) = files.length - 1 ∧
                  (i0 :: rest).length = files.length then
                buildArr (sortByKey indexed) path []
              else .err .invalidArray := by
  rw [deserialize_array]
  cases hp : parseEntries files with
  | none => rfl
  | some indexed =>
      cases hd : dedupConsec ((sortByKey indexed).map (fun x => x.1)) with
      | nil => rfl
      | cons i0 rest => rfl

/-- `deserialize_table` (implode.rs lines 178-192). -/
def deserialize_table (files : List (String × FST)) (path : List String) :
    Res Value :=
  tableGo files path []

/-- `implode(source)`: deserializing the filesystem tree rooted at the
source path (modelled with the empty relative path at the root). -/
def implode (t : FST) : Res Value := deserialize_any t []

/-- I/O errors during explode.  The only failure mode reachable in the model
(which assumes a fresh, writable destination) is `fs::write` with a missing
parent directory. -/
inductive IOErr where
  | writeMissingParent
deriving DecidableEq

/-- TOML basic-string escaping applied by the external document-format
library when a `String` scalar is serialized (`toml::to_string`). -/
def escapeTomlString (s : String) : String :=
  ⟨s.data.flatMap fun c =>
    if c = '"' then ['\\', '"']
    else if c = '\\' then ['\\', '\\']
    else if c = '\n' then ['\\', 'n']
    else if c = '\t' then ['\\', 't']
    else if c = '\r' then ['\\', 'r']
    else [c]⟩

/-- Zero-padded decimal rendering used by datetime formatting. -/
def padNat (width n : Nat) : String :=
  let s := toString n
  ⟨List.replicate (width - s.length) '0'⟩ ++ s

/-- Formatting of a datetime back to its RFC-3339-style text (the external
library's `Display`). -/
def formatDatetime (d : Datetime) : String :=
  let dateS := match d.date with
    | some (y, mo, da) => padNat 4 y ++ "-" ++ padNat 2 mo ++ "-" ++ padNat 2 da
    | none => ""
  let timeS := match d.time with
    | some (h, mi, se, frac) =>
        padNat 2 h ++ ":" ++ padNat 2 mi ++ ":" ++ padNat 2 se ++
        (if frac = [] then "" else "." ++ ⟨frac⟩)
    | none => ""
  let offS := match d.offset with
    | some .utc => "Z"
    | some (.plus h m) => "+" ++ padNat 2 h ++ ":" ++ padNat 2 m
    | some (.minus h m) => "-" ++ padNat 2 h ++ ":" ++ padNat 2 m
    | none => ""
  (if d.date.isSome ∧ d.time.isSome then dateS ++ "T" ++ timeS
   else dateS ++ timeS) ++ offS

/-- The text written for one scalar by `visit_serialize` (explode.rs lines
13-15, `toml::to_string`), i.e. the external library's canonical scalar
encoding (spec §4.3).  Float formatting is abstracted (no theorem below
consumes it); the collection cases are unreachable, since `visit_value`
routes them to the directory visitors. -/
def encodeScalar : Value → String
  | .boolean true => "true"
  | .boolean false => "false"
  | .string s => "\"" ++ escapeTomlString s ++ "\""
  | .integer n => toString n
  | .float (.finite q) => toString q
  | .float .infPos => "inf"
  | .float .infNeg => "-inf"
  | .float .nan => "nan"
  | .datetime d => formatDatetime d
  | .array _ => ""
  | .table _ => ""

mutual

/-- `visit_value` (explode.rs lines 69-77), as a function of the value and
of the state of the destination path `P`, abstracted to one boolean:
`pe` = "`P`'s parent directory exists before the call" (the destination
itself is assumed fresh).  The result is the filesystem node created at `P`
(`none` when nothing is created there) together with whether `P`'s parent
exists after the call (`fs::create_dir_all` anywhere strictly below a path
creates all its missing ancestors). -/
def visit_value : Value → Bool → Except IOErr (Option FST × Bool)
  | .table kvs, _ =>
      -- visit_table (explode.rs lines 33-40): `fs::create_dir_all(P)` always
      -- creates `P` (and its ancestors), then recurses into each pair.
      match visit_table kvs with
      | .error e => .error e
      | .ok entries => .ok (some (.dir entries), true)
  | .array elems, pe =>
      -- visit_array (explode.rs lines 60-66): NO directory is created at `P`;
      -- it only recurses into the elements at `P/i`.
      match visit_array elems 0 false with
      | .error e => .error e
      | .ok (entries, selfExists) =>
          .ok (if selfExists then some (.dir entries) else none, pe || selfExists)
  | v, pe =>
      -- visit_serialize (explode.rs lines 13-15): `fs::write(P, text)` needs
      -- `P`'s parent to exist, and creates the file at `P`.
      if pe then .ok (some (.file (encodeScalar v)), true)
      else .error .writeMissingParent
termination_by v _ => (sizeOf v, 0)
decreasing_by
  · apply Prod.Lex.left; simp [Value.table.sizeOf_spec]
  · apply Prod.Lex.left; simp [Value.array.sizeOf_spec]

/-- The loop of `visit_table` (explode.rs lines 35-37): each child runs at
`P/key`, whose parent `P` exists (just created).  A child that creates
nothing (an empty array) contributes no directory entry. -/
def visit_table : List (String × Value) → Except IOErr (List (String × FST))
  | [] => .ok []
  | (k, v) :: rest =>
      match visit_value v true with
      | .error e => .error e
      | .ok (opt, _) =>
          match visit_table rest with
          | .error e => .error e
          | .ok tail =>
              .ok (match opt with | some t => (k, t) :: tail | none => tail)
termination_by kvs => (sizeOf kvs, 1)
decreasing_by
  · apply Prod.Lex.left
    simp only [List.cons.sizeOf_spec, Prod.mk.sizeOf_spec]; omega
  · apply Prod.Lex.left; simp only [List.cons.sizeOf_spec]; omega

/-- The loop of `visit_array` (explode.rs lines 61-63): each element runs at
`P/i` where `i` is the position rendered in decimal; `selfExists` tracks
whether `P` exists yet (a `create_dir_all` fired by a descendant creates
`P` as well, letting later scalar siblings succeed). -/
def visit_array : List Value → Nat → Bool → Except IOErr (List (String × FST) × Bool)
  | [], _, selfExists => .ok ([], selfExists)
  | v :: rest, i, selfExists =>
      match visit_value v selfExists with
      | .error e => .error e
      | .ok (opt, selfExists2) =>
          match visit_array rest (i + 1) selfExists2 with
          | .error e => .error e
          | .ok (tail, selfFinal) =>
              .ok ((match opt with | some t => (toString i, t) :: tail | none => tail),
                selfFinal)
termination_by elems _ _ => (sizeOf elems, 1)
decreasing_by
  · apply Prod.Lex.left
    simp only [List.cons.sizeOf_spec, Prod.mk.sizeOf_spec]; omega
  · apply Prod.Lex.left; simp only [List.cons.sizeOf_spec]; omega

end

/-- `explode(value, destination)` (the `Explode` command): run `visit_value`
against a fresh destination path whose parent directory exists, returning
the filesystem node created at the destination (`none` when nothing is). -/
def explode (v : Value) : Except IOErr (Option FST) :=
  match visit_value v true with
  | .error e => .error e
  | .ok (opt, _) => .ok opt

/-! ## The array classification, in terms of the parsed indices -/

/-- The list of parsed indices of a directory's child names, in listing
order (meaningful when every name parses, cf. `parseEntries`). -/
def parsedIndices (files : List (String × FST)) : List Nat :=
  files.map fun e => (parseUsize e.1).getD 0

/-- Sorting a list of parsed indices (the key part of implode.rs line 143). -/
def sortNat (l : List Nat) : List Nat := l.insertionSort (· ≤ ·)

/-- The dense-array check of `deserialize_array` (implode.rs lines 145-150)
as a function of the parsed indices and the number of children: sort,
dedup, then require first index 0, last index `n - 1`, and no shrinkage
from dedup. (`false` on an empty index list, where the code panics
instead.) -/
def checkDense (idxs : List Nat) (n : Nat) : Bool :=
  match dedupConsec (sortNat idxs) with
  | [] => false
  | i0 :: rest =>
      i0 = 0 ∧ (i0 :: rest).getLast (List.cons_ne_nil _ _) = n - 1 ∧
        (i0 :: rest).length = n

theorem sortNat_perm (l : List Nat) : (sortNat l).Perm l :=
  List.perm_insertionSort _ l

theorem sortNat_sorted (l : List Nat) : (sortNat l).Sorted (· ≤ ·) :=
  List.sorted_insertionSort _ l

/-- Two sorted lists of naturals that are permutations of each other are
equal, hence `sortNat` only depends on the multiset of indices. -/
theorem sortNat_eq_of_perm {l l' : List Nat} (h : l.Perm l') :
    sortNat l = sortNat l' :=
  List.eq_of_perm_of_sorted (((sortNat_perm l).trans h).trans (sortNat_perm l').symm)
    (sortNat_sorted l) (sortNat_sorted l')

theorem toFinset_list_range (n : Nat) : (List.range n).toFinset = Finset.range n := by
  ext x; simp

/-- In a `(· ≤ ·)`-sorted list every element is at most the last one. -/
theorem sorted_le_getLast {l : List Nat} (hs : l.Sorted (· ≤ ·)) (h : l ≠ [])
    {x : Nat} (hx : x ∈ l) : x ≤ l.getLast h := by
  induction l with
  | nil => cases hx
  | cons a t ih =>
      cases t with
      | nil =>
          rcases List.mem_singleton.mp hx with rfl
          rfl
      | cons b t' =>
          rw [List.getLast_cons (List.cons_ne_nil _ _)]
          rcases List.mem_cons.mp hx with rfl | hx'
          · exact le_trans
              (List.rel_of_sorted_cons hs _ (List.getLast_mem (List.cons_ne_nil _ _)))
              (le_refl _)
          · exact ih hs.of_cons (List.cons_ne_nil _ _) hx'

/-- A sorted duplicate-free list of `n` naturals all below `n` is exactly
`[0, 1, …, n-1]`. -/
theorem sorted_nodup_bounded_eq_range {l : List Nat} (hs : l.Sorted (· ≤ ·))
    (hn : l.Nodup) (hb : ∀ x ∈ l, x < l.length) : l = List.range l.length := by
  have hsub : l.toFinset ⊆ Finset.range l.length := by
    intro x hx
    exact Finset.mem_range.mpr (hb x (List.mem_toFinset.mp hx))
  have hcard : (Finset.range l.length).card ≤ l.toFinset.card := by
    rw [Finset.card_range, List.toFinset_card_of_nodup hn]
  have hfin : l.toFinset = (List.range l.length).toFinset := by
    rw [toFinset_list_range]
    exact Finset.eq_of_subset_of_card_le hsub hcard
  have hperm : l.Perm (List.range l.length) :=
    List.perm_of_nodup_nodup_toFinset_eq hn (List.nodup_range _) hfin
  exact List.eq_of_perm_of_sorted hperm hs (List.sorted_le_range _)

/-- Adjacent `≤` together with adjacent `≠` gives adjacent `<`. -/
theorem chain'_lt_of_le_ne : ∀ {l : List Nat},
    l.Chain' (· ≤ ·) → l.Chain' (· ≠ ·) → l.Chain' (· < ·)
  | [], _, _ => List.chain'_nil
  | [_], _, _ => List.chain'_singleton _
  | a :: b :: t, hle, hne => by
      rw [List.chain'_cons] at hle hne ⊢
      exact ⟨lt_of_le_of_ne hle.1 hne.1, chain'_lt_of_le_ne hle.2 hne.2⟩

/-- The dense-array check holds iff the parsed indices are exactly
`{0, 1, …, n-1}` — for a nonempty index list of length `n`. -/
theorem checkDense_iff {idxs : List Nat} (hne : idxs ≠ []) :
    checkDense idxs idxs.length = true ↔ idxs.Perm (List.range idxs.length) := by
  constructor
  · intro h
    rw [checkDense] at h
    set s := sortNat idxs with hs
    have hsl : s.length = idxs.length := (sortNat_perm idxs).length_eq
    cases hd : dedupConsec s with
    | nil => rw [hd] at h; cases h
    | cons i0 rest =>
        rw [hd] at h
        simp only [decide_eq_true_eq] at h
        obtain ⟨_, hlast, hlen⟩ := h
        -- dedup did not shrink the sorted list, so it had no adjacent equals
        have hsub : List.Sublist (i0 :: rest) s := by
          have h2 : List.Sublist (dedupConsec s) s := List.destutter_sublist _ s
          rwa [hd] at h2
        have heq : i0 :: rest = s := hsub.eq_of_length (by rw [hlen, hsl])
        have hchain : s.Chain' (· ≠ ·) := by
          rw [← List.destutter_eq_self_iff (· ≠ ·), ← dedupConsec, hd, heq]
        have hlt : s.Chain' (· < ·) :=
          chain'_lt_of_le_ne (sortNat_sorted idxs).chain' hchain
        have hnodup : s.Nodup :=
          (List.chain'_iff_pairwise.mp hlt).imp fun hab => ne_of_lt hab
        have hsne : s ≠ [] := by
          intro h0
          rw [h0] at hsl
          exact hne (List.length_eq_zero.mp hsl.symm)
        have hbound : ∀ x ∈ s, x < s.length := by
          intro x hx
          have hxle : x ≤ s.getLast hsne :=
            sorted_le_getLast (sortNat_sorted idxs) hsne hx
          have hgl : s.getLast hsne = idxs.length - 1 := by
            have h1 : s.getLast? = some (idxs.length - 1) := by
              rw [← heq, List.getLast?_eq_getLast _ (List.cons_ne_nil i0 rest), hlast]
            rw [List.getLast?_eq_getLast s hsne] at h1
            exact Option.some_inj.mp h1
          have : 1 ≤ s.length := List.length_pos.mpr hsne
          omega
        have hrange : s = List.range s.length :=
          sorted_nodup_bounded_eq_range (sortNat_sorted idxs) hnodup hbound
        rw [hsl] at hrange
        exact ((sortNat_perm idxs).symm.trans (hrange ▸ List.Perm.refl s)).symm.symm
  · intro h
    have hn1 : 1 ≤ idxs.length := by
      cases idxs with
      | nil => exact absurd rfl hne
      | cons a t => simp
    have hsr : sortNat idxs = List.range idxs.length := by
      rw [sortNat_eq_of_perm h, sortNat]
      exact (List.sorted_le_range _).insertionSort_eq
    have hchain : (List.range idxs.length).Chain' (· ≠ ·) :=
      ((List.sorted_lt_range idxs.length).chain').imp fun a b hab => ne_of_lt hab
    obtain ⟨m, hm⟩ : ∃ m, idxs.length = m + 1 := ⟨idxs.length - 1, by omega⟩
    rw [checkDense, hsr, dedupConsec, List.destutter_of_chain' _ _ hchain, hm,
      List.range_succ]
    cases hr : List.range m ++ [m] with
    | nil => exact absurd hr (by simp)
    | cons i0 rest =>
        simp only [decide_eq_true_eq]
        have hlast : (i0 :: rest).getLast (List.cons_ne_nil _ _) = m := by
          have h1 : (List.range m ++ [m]).getLast? = some m := by simp
          rw [hr, List.getLast?_eq_getLast _ (List.cons_ne_nil i0 rest)] at h1
          exact Option.some_inj.mp h1
        refine ⟨?_, ?_, ?_⟩
        · have h0 : (List.range m ++ [m]).head? = some i0 := by rw [hr]; rfl
          cases m with
          | zero => simpa using h0.symm
          | succ k =>
              rw [List.range_succ_eq_map] at h0
              simpa using h0.symm
        · omega
        · rw [← hr]
          simp

/-- `parseEntries` fails exactly when some child name fails to parse as a
`usize`. -/
theorem parseEntries_eq_none_iff {files : List (String × FST)} :
    parseEntries files = none ↔ ∃ e ∈ files, parseUsize e.1 = none := by
  induction files with
  | nil => simp [parseEntries]
  | cons e rest ih =>
      obtain ⟨n, t⟩ := e
      simp only [parseEntries]
      cases hk : parseUsize n with
      | none =>
          refine iff_of_true ?_ ⟨(n, t), List.mem_cons_self _ _, hk⟩
          trivial
      | some k =>
          cases hrest : parseEntries rest with
          | none =>
              rw [hrest] at ih
              obtain ⟨e', he', hpe⟩ := ih.mp rfl
              simp only [Option.map_none']
              refine iff_of_true ?_ ⟨e', List.mem_cons_of_mem _ he', hpe⟩
              trivial
          | some l' =>
              rw [hrest] at ih
              simp only [Option.map_some']
              constructor
              · intro h; cases h
              · rintro ⟨e', he', hpe⟩
                rcases List.mem_cons.mp he' with rfl | hmem
                · rw [hk] at hpe; cases hpe
                · cases ih.mpr ⟨e', hmem, hpe⟩

/-- The keys of a parsed entry list are the parsed indices of the names. -/
theorem parseEntries_map_fst {files : List (String × FST)}
    {il : List (Nat × String × FST)} (h : parseEntries files = some il) :
    il.map (fun x => x.1) = parsedIndices files := by
  rw [parseEntries_eq_map h, List.map_map, parsedIndices]
  rfl

theorem parseEntries_length {files : List (String × FST)}
    {il : List (Nat × String × FST)} (h : parseEntries files = some il) :
    il.length = files.length := by
  rw [parseEntries_eq_map h, List.length_map]

/-- Sorting the indexed entries by key and projecting the keys is the same
as sorting the keys. -/
theorem map_fst_sortByKey (il : List (Nat × String × FST)) :
    (sortByKey il).map (fun x => x.1) = sortNat (il.map (fun x => x.1)) :=
  List.map_insertionSort _ _ _ _ fun _ _ _ _ => Iff.rfl

/-- The array-building loop never returns an error: a failed child is a
panic (`.unwrap()`), not an error. -/
theorem buildArr_ne_err (l : List (Nat × String × FST)) (path : List String)
    (acc : List Value) (e : Err) : buildArr l path acc ≠ .err e := by
  induction l generalizing acc with
  | nil => rw [buildArr]; intro h; cases h
  | cons x rest ih =>
      obtain ⟨k, name, sub⟩ := x
      rw [buildArr]
      cases deserialize_any sub (path ++ [name]) with
      | ok v => exact ih (v :: acc)
      | err e' => intro h; cases h
      | panic => intro h; cases h

/-- For a nonempty directory whose names all parse, `deserialize_array`
reduces to the dense check on the parsed indices: build the array when it
holds, return "Not a valid TOML array" when it fails. -/
theorem deserialize_array_of_parse {files : List (String × FST)}
    {il : List (Nat × String × FST)} (path : List String) (hne : files ≠ [])
    (hp : parseEntries files = some il) :
    deserialize_array files path =
      if checkDense (parsedIndices files) files.length then
        buildArr (sortByKey il) path []
      else .err .invalidArray := by
  have hs : (sortByKey il).map (fun x => x.1) = sortNat (parsedIndices files) := by
    rw [map_fst_sortByKey, parseEntries_map_fst hp]
  rw [deserialize_array_eq, hp]
  dsimp only
  cases hd : dedupConsec ((sortByKey il).map (fun x => x.1)) with
  | nil =>
      exfalso
      rw [dedupConsec, List.destutter_eq_nil] at hd
      have h1 : il.length = files.length := parseEntries_length hp
      have h2 : (sortByKey il).length = il.length :=
        (List.perm_insertionSort keyLE il).length_eq
      have h3 := congrArg List.length hd
      rw [List.length_map] at h3
      simp only [List.length_nil] at h3
      exact hne (List.length_eq_zero.mp (by omega))
  | cons i0 rest =>
      dsimp only
      have hcd : checkDense (parsedIndices files) files.length =
          decide (i0 = 0 ∧ (i0 :: rest).getLast (List.cons_ne_nil _ _) = files.length - 1 ∧
            (i0 :: rest).length = files.length) := by
        rw [checkDense, ← hs, hd]
      rw [hcd]
      by_cases hcond : i0 = 0 ∧ (i0 :: rest).getLast (List.cons_ne_nil _ _) =
          files.length - 1 ∧ (i0 :: rest).length = files.length
      · rw [if_pos hcond, if_pos (by simpa using hcond)]
      · rw [if_neg hcond, if_neg (by simpa using hcond)]

/-- A successful `tableGo` yields a table whose keys are the child names in
listing order and whose values are the recursively imploded children. -/
theorem tableGo_ok_spec : ∀ (l : List (String × FST)) (path : List String)
    (acc : List (String × Value)) (v : Value), tableGo l path acc = .ok v →
    ∃ t, v = .table (acc.reverse ++ t) ∧
      t.map (fun kv => kv.1) = l.map (fun e => e.1) ∧
      ∀ kv ∈ t, ∃ sub, (kv.1, sub) ∈ l ∧
        deserialize_any sub (path ++ [kv.1]) = .ok kv.2 := by
  intro l
  induction l with
  | nil =>
      intro path acc v h
      rw [tableGo] at h
      cases h
      exact ⟨[], by simp, rfl, by simp⟩
  | cons e rest ih =>
      obtain ⟨n, sub⟩ := e
      intro path acc v h
      rw [tableGo] at h
      cases h1 : deserialize_any sub (path ++ [n]) with
      | ok w =>
          rw [h1] at h
          obtain ⟨t', hv, hkeys, hvals⟩ := ih path ((n, w) :: acc) v h
          refine ⟨(n, w) :: t', ?_, ?_, ?_⟩
          · rw [hv]; simp
          · simpa using hkeys
          · intro kv hkv
            rcases List.mem_cons.mp hkv with rfl | hmem
            · exact ⟨sub, List.mem_cons_self _ _, h1⟩
            · obtain ⟨sub', hmem', hok⟩ := hvals kv hmem
              exact ⟨sub', List.mem_cons_of_mem _ hmem', hok⟩
      | err e' => rw [h1] at h; cases h
      | panic => rw [h1] at h; cases h

/-- The array-qualification predicate of the structural classifier (spec
§4.2), as a function of the child names alone: every name parses as a
`usize` and the parsed indices pass the dense check.  The empty name list
vacuously qualifies (spec §9). -/
def namesQualify (names : List String) : Bool :=
  names.all (fun n => (parseUsize n).isSome) &&
    (names.isEmpty || checkDense (names.map fun n => (parseUsize n).getD 0) names.length)

theorem parsedIndices_eq (files : List (String × FST)) :
    parsedIndices files = (files.map fun e => e.1).map fun n => (parseUsize n).getD 0 := by
  rw [parsedIndices, List.map_map]; rfl

/-- When the (nonempty) name list fails array qualification,
`deserialize_array` returns an error — the parse error for an unparseable
name, the dense-check error otherwise. -/
theorem deserialize_array_err_of_not_qualify {files : List (String × FST)}
    (path : List String) (hne : files ≠ [])
    (hq : namesQualify (files.map fun e => e.1) = false) :
    ∃ e, deserialize_array files path = .err e := by
  rw [namesQualify, Bool.and_eq_false_iff] at hq
  rcases hq with hq | hq
  · -- some name fails to parse
    have : ∃ e ∈ files, parseUsize e.1 = none := by
      rw [List.all_eq_false] at hq
      obtain ⟨n, hn, hfail⟩ := hq
      obtain ⟨e, he, rfl⟩ := List.mem_map.mp hn
      exact ⟨e, he, Option.not_isSome_iff_eq_none.mp (by simpa using hfail)⟩
    rw [deserialize_array_eq, parseEntries_eq_none_iff.mpr this]
    exact ⟨.invalidInteger, rfl⟩
  · rw [Bool.or_eq_false_iff] at hq
    obtain ⟨-, hq⟩ := hq
    cases hp : parseEntries files with
    | none => rw [deserialize_array_eq, hp]; exact ⟨.invalidInteger, rfl⟩
    | some il =>
        rw [deserialize_array_of_parse path hne hp]
        rw [if_neg]
        · exact ⟨.invalidArray, rfl⟩
        · rw [parsedIndices_eq]
          have hlen : (files.map fun e => e.1).length = files.length :=
            List.length_map _ _
          rw [← hlen, hq]
          simp

/-- C4 core: for a nonempty directory whose names all parse as indices, the
array classification succeeds (no error is returned) iff the parsed indices
are exactly `{0, …, n-1}`. -/
theorem deserialize_array_not_err_iff {files : List (String × FST)}
    (path : List String) (hall : ∀ e ∈ files, (parseUsize e.1).isSome = true)
    (hne : files ≠ []) :
    (∀ e, deserialize_array files path ≠ .err e) ↔
      (parsedIndices files).Perm (List.range files.length) := by
  obtain ⟨il, hp⟩ : ∃ il, parseEntries files = some il := by
    cases hpp : parseEntries files with
    | none =>
        obtain ⟨e, he, hnone⟩ := parseEntries_eq_none_iff.mp hpp
        have h2 := hall e he
        rw [hnone] at h2; cases h2
    | some il => exact ⟨il, rfl⟩
  have hlen : (parsedIndices files).length = files.length := List.length_map _ _
  have hne' : parsedIndices files ≠ [] := by
    intro h0
    have := congrArg List.length h0
    rw [hlen] at this
    exact hne (List.length_eq_zero.mp this)
  rw [deserialize_array_of_parse path hne hp]
  by_cases hc : checkDense (parsedIndices files) files.length = true
  · rw [if_pos hc]
    rw [← hlen] at hc
    have := (checkDense_iff hne').mp hc
    rw [hlen] at this
    exact iff_of_true (fun e => buildArr_ne_err _ _ _ e) this
  · rw [if_neg hc]
    refine iff_of_false ?_ ?_
    · intro hno
      exact hno .invalidArray rfl
    · intro hperm
      apply hc
      rw [← hlen]
      exact (checkDense_iff hne').mpr (by rw [hlen]; exact hperm)

/-- Two key-sorted indexed entry lists that are permutations of each other
with duplicate-free keys are equal (sorting by key is canonical once the
dense check guarantees distinct keys). -/
theorem sorted_keyLE_perm_eq : ∀ {l₁ l₂ : List (Nat × String × FST)},
    l₁.Perm l₂ → l₁.Sorted keyLE → l₂.Sorted keyLE →
    (l₁.map (fun x => x.1)).Nodup → l₁ = l₂ := by
  intro l₁
  induction l₁ with
  | nil =>
      intro l₂ h _ _ _
      exact (h.symm.eq_nil).symm
  | cons a t₁ ih =>
      intro l₂ h hs₁ hs₂ hnd
      cases l₂ with
      | nil => cases h.eq_nil
      | cons b t₂ =>
          by_cases hab : a = b
          · subst hab
            rw [List.map_cons, List.nodup_cons] at hnd
            rw [ih h.cons_inv hs₁.of_cons hs₂.of_cons hnd.2]
          · exfalso
            have ha2 : a ∈ b :: t₂ := h.subset (List.mem_cons_self _ _)
            have hb1 : b ∈ a :: t₁ := h.symm.subset (List.mem_cons_self _ _)
            have ha2' : a ∈ t₂ := by
              rcases List.mem_cons.mp ha2 with h' | h'
              · exact absurd h' hab
              · exact h'
            have hb1' : b ∈ t₁ := by
              rcases List.mem_cons.mp hb1 with h' | h'
              · exact absurd h'.symm hab
              · exact h'
            have hkey : a.1 = b.1 :=
              le_antisymm (List.rel_of_sorted_cons hs₁ b hb1')
                (List.rel_of_sorted_cons hs₂ a ha2')
            rw [List.map_cons, List.nodup_cons] at hnd
            exact hnd.1 (hkey ▸ List.mem_map_of_mem _ hb1')

/-- A successful `buildArr` run appends, to the reversed accumulator, the
imploded value of each entry in order. -/
theorem buildArr_ok_spec : ∀ (l : List (Nat × String × FST)) (path : List String)
    (acc : List Value) (arr : List Value),
    buildArr l path acc = .ok (.array arr) →
    ∃ vals, arr = acc.reverse ++ vals ∧ vals.length = l.length ∧
      ∀ i, (hi : i < l.length) → ∃ v, vals[i]? = some v ∧
        deserialize_any (l.get ⟨i, hi⟩).2.2 (path ++ [(l.get ⟨i, hi⟩).2.1]) = .ok v := by
  intro l
  induction l with
  | nil =>
      intro path acc arr h
      rw [buildArr] at h
      cases h
      exact ⟨[], by simp, rfl, fun i hi => absurd hi (by simp)⟩
  | cons x rest ih =>
      obtain ⟨k, name, sub⟩ := x
      intro path acc arr h
      rw [buildArr] at h
      cases h1 : deserialize_any sub (path ++ [name]) with
      | ok w =>
          rw [h1] at h
          obtain ⟨vals', hv, hlen, hidx⟩ := ih path (w :: acc) arr h
          refine ⟨w :: vals', by simpa using hv, by simpa using hlen, ?_⟩
          intro i hi
          cases i with
          | zero => exact ⟨w, by simp, h1⟩
          | succ j =>
              obtain ⟨v, hget, hok⟩ := hidx j (by simpa using hi)
              exact ⟨v, by simpa using hget, hok⟩
      | err e' => rw [h1] at h; cases h
      | panic => rw [h1] at h; cases h

/-- A successful array deserialization must have parsed every name, passed
the dense check, and built the array from the key-sorted entries. -/
theorem deserialize_array_ok_spec {files : List (String × FST)}
    {path : List String} {arr : List Value}
    (h : deserialize_array files path = .ok (.array arr)) :
    ∃ il, parseEntries files = some il ∧ files ≠ [] ∧
      checkDense (parsedIndices files) files.length = true ∧
      buildArr (sortByKey il) path [] = .ok (.array arr) := by
  rcases eq_or_ne files [] with rfl | hne
  · rw [deserialize_array_eq] at h
    cases h
  · cases hp : parseEntries files with
    | none => rw [deserialize_array_eq, hp] at h; cases h
    | some il =>
        rw [deserialize_array_of_parse path hne hp] at h
        by_cases hc : checkDense (parsedIndices files) files.length = true
        · rw [if_pos hc] at h
          exact ⟨il, rfl, hne, hc, h⟩
        · rw [if_neg hc] at h
          cases h

/-- The keys of the sorted entries are exactly `0, …, n-1` when the dense
check holds. -/
theorem sortByKey_keys_range {files : List (String × FST)}
    {il : List (Nat × String × FST)} (hp : parseEntries files = some il)
    (hne : files ≠ [])
    (hc : checkDense (parsedIndices files) files.length = true) :
    (sortByKey il).map (fun x => x.1) = List.range files.length := by
  have hlen : (parsedIndices files).length = files.length := List.length_map _ _
  have hne' : parsedIndices files ≠ [] := by
    intro h0
    have := congrArg List.length h0
    rw [hlen] at this
    exact hne (List.length_eq_zero.mp this)
  rw [← hlen] at hc
  have hperm := (checkDense_iff hne').mp hc
  rw [map_fst_sortByKey, parseEntries_map_fst hp, sortNat_eq_of_perm hperm, hlen,
    sortNat]
  exact (List.sorted_le_range _).insertionSort_eq

/-- The full result of `deserialize_array` is invariant under permutation of
the directory listing. -/
theorem deserialize_array_perm {files files' : List (String × FST)}
    (path : List String) (h : files.Perm files') :
    deserialize_array files path = deserialize_array files' path := by
  rcases eq_or_ne files [] with rfl | hne
  · rw [h.nil_eq]
  · have hne' : files' ≠ [] := by
      intro h0
      rw [h0] at h
      exact hne h.eq_nil
    cases hp : parseEntries files with
    | none =>
        have hp' : parseEntries files' = none := by
          rw [parseEntries_eq_none_iff] at hp ⊢
          obtain ⟨e, he, hf⟩ := hp
          exact ⟨e, h.subset he, hf⟩
        rw [deserialize_array_eq, deserialize_array_eq, hp, hp']
    | some il =>
        obtain ⟨il', hp'⟩ : ∃ il', parseEntries files' = some il' := by
          cases hpp : parseEntries files' with
          | none =>
              obtain ⟨e, he, hf⟩ := parseEntries_eq_none_iff.mp hpp
              have hcontra : parseEntries files = none :=
                parseEntries_eq_none_iff.mpr ⟨e, h.symm.subset he, hf⟩
              rw [hp] at hcontra
              cases hcontra
          | some l => exact ⟨l, rfl⟩
        have hperm_il : il.Perm il' := by
          rw [parseEntries_eq_map hp, parseEntries_eq_map hp']
          exact h.map _
        have hidx : (parsedIndices files).Perm (parsedIndices files') := h.map _
        have hlen : files.length = files'.length := h.length_eq
        have hcd : checkDense (parsedIndices files) files.length =
            checkDense (parsedIndices files') files'.length := by
          rw [checkDense, checkDense, sortNat_eq_of_perm hidx, hlen]
        rw [deserialize_array_of_parse path hne hp,
          deserialize_array_of_parse path hne' hp', ← hcd]
        by_cases hc : checkDense (parsedIndices files) files.length = true
        · rw [if_pos hc, if_pos hc]
          have hkeys : ((sortByKey il).map (fun x => x.1)).Nodup := by
            rw [sortByKey_keys_range hp hne hc]
            exact List.nodup_range _
          have hsort_eq : sortByKey il = sortByKey il' := by
            apply sorted_keyLE_perm_eq
            · exact ((List.perm_insertionSort keyLE il).trans hperm_il).trans
                (List.perm_insertionSort keyLE il').symm
            · exact List.sorted_insertionSort keyLE il
            · exact List.sorted_insertionSort keyLE il'
            · exact hkeys
          rw [hsort_eq]
        · rw [if_neg hc, if_neg hc]

/-- Modelled from the spec: the normalization step as §4.2 words it —
"strip a single trailing line terminator" and nothing else.  Stated for
comparison with the code's `trimEnd` (which trims all trailing
whitespace). -/
def specStripOneNewline (s : String) : String :=
  if s.data.getLast? = some '\n' then
    match s.data.dropLast.getLast? with
    | some '\r' => ⟨s.data.dropLast.dropLast⟩
    | _ => ⟨s.data.dropLast⟩
  else s

/-- Appending one newline to a file's contents never changes the inference
result (`trim_end` removes it together with any other trailing
whitespace). -/
theorem trimEnd_append_newline (s : String) : trimEnd (s ++ "\n") = trimEnd s := by
  rw [trimEnd, trimEnd]
  have hdata : (s ++ "\n").data = s.data ++ ['\n'] := String.data_append s "\n"
  rw [hdata, List.reverse_append]
  have hws : isRustWhitespace '\n' = true := by decide
  simp [List.dropWhile, hws]

/-! ## Claims -/

/-- C1: the round-trip property `implode(explode(v)) == v` fails on the
code.  Exploding `String("")` writes a file holding `""`, whose implosion
is a scalar-inference error (no grammar accepts the empty quoted string);
exploding the empty table writes an empty directory, whose implosion
panics (`indexes[0]` out of bounds) instead of returning any Value. -/
theorem c1_roundtrip_fails :
    (explode (.string "") = .ok (some (.file "\"\"")) ∧
      deserialize_any (.file "\"\"") [] = .err (.scalarInference [])) ∧
    explode (.table []) = .ok (some (.dir [])) ∧
    deserialize_any (.dir []) [] = .panic := by
  refine ⟨⟨?_, ?_⟩, ?_, ?_⟩
  · simp [explode, visit_value, encodeScalar, escapeTomlString]
  · rw [deserialize_any]; rfl
  · simp [explode, visit_value, visit_table]
  · simp [deserialize_any, deserialize_array_eq, parseEntries, sortByKey,
      dedupConsec, List.destutter]

/-- C2: imploding an empty directory does not return a fixed value — it
panics: `deserialize_array` indexes `indexes[0]` on an empty index vector,
and the panic propagates through `or_else` (which only catches returned
errors), so the table fallback is never tried. -/
theorem c2_empty_dir_panics :
    deserialize_array [] [] = .panic ∧ implode (.dir []) = .panic := by
  constructor
  · simp [deserialize_array_eq, parseEntries, sortByKey, dedupConsec, List.destutter]
  · simp [implode, deserialize_any, deserialize_array_eq, parseEntries, sortByKey,
      dedupConsec, List.destutter]

/-- C3: `visit_array` does not create the directory at its own path: an
empty array produces no filesystem node at `P` at all (rather than an
empty directory), and an array of scalars under a fresh `P` fails the very
first write (`fs::write(P/0, …)` has no parent directory). -/
theorem c3_array_creates_no_directory :
    visit_value (.array []) true = .ok (none, true) ∧
    explode (.array []) = .ok none ∧
    explode (.array [.integer 1]) = .error .writeMissingParent := by
  refine ⟨?_, ?_, ?_⟩
  · simp [visit_value, visit_array]
  · simp [explode, visit_value, visit_array]
  · simp [explode, visit_value, visit_array]

/-- C4: for a nonempty directory whose child names all parse as
non-negative integers, the array classification succeeds iff the parsed
indices are exactly `{0, …, childCount-1}`; and the entry set
`{"01", "1"}` (both parsing to 1) always fails array classification. -/
theorem c4_dense_classification (files : List (String × FST)) (path : List String)
    (hall : ∀ e ∈ files, (parseUsize e.1).isSome = true) (hne : files ≠ []) :
    ((∀ e, deserialize_array files path ≠ .err e) ↔
      (parsedIndices files).Perm (List.range files.length)) ∧
    ∀ (f g : FST) (q : List String), ∃ e,
      deserialize_array [("01", f), ("1", g)] q = .err e := by
  constructor
  · exact deserialize_array_not_err_iff path hall hne
  · intro f g q
    refine ⟨.invalidArray, ?_⟩
    rw [deserialize_array_eq]
    rfl

/-- C4 witness: the qualifying set `{"0", "1"}`. -/
theorem c4_dense_classification_witness :
    (∀ e ∈ [("0", FST.file "true"), ("1", FST.file "2")], (parseUsize e.1).isSome = true) ∧
    [("0", FST.file "true"), ("1", FST.file "2")] ≠ [] ∧
    (((∀ e, deserialize_array [("0", FST.file "true"), ("1", FST.file "2")] [] ≠ .err e) ↔
      (parsedIndices [("0", FST.file "true"), ("1", FST.file "2")]).Perm
        (List.range [("0", FST.file "true"), ("1", FST.file "2")].length)) ∧
     ∀ (f g : FST) (q : List String), ∃ e,
       deserialize_array [("01", f), ("1", g)] q = .err e) :=
  ⟨by decide, List.cons_ne_nil _ _,
   c4_dense_classification _ [] (by decide) (List.cons_ne_nil _ _)⟩

/-- C5: scalar inference tries Boolean, String, Integer, Float, DateTime in
that order and stops at the first success: `42` infers to Integer(42)
(never Float or String), `3.14` to Float(3.14), a quoted `"42"` to
String("42"); and when all five grammars fail the error names the
offending path. -/
theorem c5_scalar_precedence :
    (∀ path, deserialize_any (.file "42") path = .ok (.integer 42)) ∧
    (∀ path, deserialize_any (.file "3.14") path = .ok (.float (.finite (157 / 50)))) ∧
    (∀ path, deserialize_any (.file "\"42\"") path = .ok (.string "42")) ∧
    ∀ s path, deserialize_bool (trimEnd s) = none → deserialize_str (trimEnd s) = none →
      deserialize_i64 (trimEnd s) = none → deserialize_f64 (trimEnd s) = none →
      deserialize_datetime (trimEnd s) = none →
      deserialize_any (.file s) path = .err (.scalarInference path) := by
  refine ⟨?_, ?_, ?_, ?_⟩
  · intro path; rw [deserialize_any]; rfl
  · intro path
    rw [deserialize_any]
    simp only [inferScalarFile]
    have hb : deserialize_bool (trimEnd "3.14") = none := rfl
    have hs : deserialize_str (trimEnd "3.14") = none := rfl
    have hi : deserialize_i64 (trimEnd "3.14") = none := rfl
    have hf : deserialize_f64 (trimEnd "3.14") =
        some (.float (.finite ((1 : ℚ) *
          (((3 : ℕ) : ℚ) + ((14 : ℕ) : ℚ) / (10 : ℚ) ^ 2)))) := rfl
    have hq : (1 : ℚ) * (((3 : ℕ) : ℚ) + ((14 : ℕ) : ℚ) / (10 : ℚ) ^ 2) = 157 / 50 := by
      norm_num
    rw [hb, hs, hi, hf, hq]
    rfl
  · intro path; rw [deserialize_any]; rfl
  · intro s path h1 h2 h3 h4 h5
    rw [deserialize_any]
    simp only [inferScalarFile]
    rw [h1, h2, h3, h4, h5]
    rfl

/-- C5 witness: content `hello` fails all five grammars and reports the
path. -/
theorem c5_scalar_precedence_witness :
    deserialize_bool (trimEnd "hello") = none ∧
    deserialize_str (trimEnd "hello") = none ∧
    deserialize_i64 (trimEnd "hello") = none ∧
    deserialize_f64 (trimEnd "hello") = none ∧
    deserialize_datetime (trimEnd "hello") = none ∧
    deserialize_any (.file "hello") ["cfg"] = .err (.scalarInference ["cfg"]) :=
  ⟨rfl, rfl, rfl, rfl, rfl,
   c5_scalar_precedence.2.2.2 "hello" ["cfg"] rfl rfl rfl rfl rfl⟩

/-- C6: an error in the child of a directory being built as an array is NOT
surfaced as a returned error: the child's scalar-inference error exists as
a returnable error, but `deserialize_array` unwraps it and the whole walk
panics. -/
theorem c6_child_error_panics :
    deserialize_any (.file "!!!") ["0"] = .err (.scalarInference ["0"]) ∧
    deserialize_any (.dir [("0", .file "!!!")]) [] = .panic := by
  constructor
  · rw [deserialize_any]; rfl
  · have h1 : parseEntries [("0", FST.file "!!!")] = some [(0, "0", FST.file "!!!")] := rfl
    have h2 : sortByKey [(0, "0", FST.file "!!!")] = [(0, "0", FST.file "!!!")] := rfl
    have h3 : inferScalarFile "!!!" ["0"] = .err (.scalarInference ["0"]) := rfl
    simp [deserialize_any, deserialize_array_eq, h1, h2, h3, buildArr, tableGo,
      dedupConsec, List.destutter, List.destutter']

/-- C7: when the (nonempty) child-name set fails array qualification,
`deserialize_any` falls back to the table classifier: the result is exactly
`deserialize_table`, a successful result is a Table mapping each child name
verbatim to its recursively imploded value, and an Array is never
returned. -/
theorem c7_table_fallback (entries : List (String × FST)) (path : List String)
    (hne : entries ≠ [])
    (hq : namesQualify (entries.map fun e => e.1) = false) :
    deserialize_any (.dir entries) path = deserialize_table entries path ∧
    (∀ v, deserialize_table entries path = .ok v → ∃ t, v = .table t ∧
      t.map (fun kv => kv.1) = entries.map (fun e => e.1) ∧
      ∀ kv ∈ t, ∃ sub, (kv.1, sub) ∈ entries ∧
        deserialize_any sub (path ++ [kv.1]) = .ok kv.2) ∧
    ∀ xs, deserialize_any (.dir entries) path ≠ .ok (.array xs) := by
  obtain ⟨e, herr⟩ := deserialize_array_err_of_not_qualify path hne hq
  have h1 : deserialize_any (.dir entries) path = deserialize_table entries path := by
    rw [deserialize_any, herr]
    rfl
  have h2 : ∀ v, deserialize_table entries path = .ok v → ∃ t, v = .table t ∧
      t.map (fun kv => kv.1) = entries.map (fun e => e.1) ∧
      ∀ kv ∈ t, ∃ sub, (kv.1, sub) ∈ entries ∧
        deserialize_any sub (path ++ [kv.1]) = .ok kv.2 := by
    intro v hv
    obtain ⟨t, hvt, hkeys, hvals⟩ := tableGo_ok_spec entries path [] v hv
    exact ⟨t, by simpa using hvt, hkeys, hvals⟩
  refine ⟨h1, h2, ?_⟩
  intro xs hok
  rw [h1] at hok
  obtain ⟨t, hvt, -, -⟩ := h2 _ hok
  cases hvt

/-- C7 witness: the entry set `{"0", "2"}` (max index 2 ≠ count−1 = 1). -/
theorem c7_table_fallback_witness :
    [("0", FST.file "true"), ("2", FST.file "false")] ≠ [] ∧
    namesQualify ([("0", FST.file "true"), ("2", FST.file "false")].map fun e => e.1)
      = false ∧
    (deserialize_any (.dir [("0", FST.file "true"), ("2", FST.file "false")]) []
        = deserialize_table [("0", FST.file "true"), ("2", FST.file "false")] [] ∧
     (∀ v, deserialize_table [("0", FST.file "true"), ("2", FST.file "false")] []
          = .ok v → ∃ t, v = .table t ∧
        t.map (fun kv => kv.1)
          = [("0", FST.file "true"), ("2", FST.file "false")].map (fun e => e.1) ∧
        ∀ kv ∈ t, ∃ sub, (kv.1, sub) ∈ [("0", FST.file "true"), ("2", FST.file "false")] ∧
          deserialize_any sub ([] ++ [kv.1]) = .ok kv.2) ∧
     ∀ xs, deserialize_any (.dir [("0", FST.file "true"), ("2", FST.file "false")]) []
        ≠ .ok (.array xs)) :=
  ⟨List.cons_ne_nil _ _, by decide,
   c7_table_fallback _ [] (List.cons_ne_nil _ _) (by decide)⟩

/-- C8 counterexample: the code's normalization is `str::trim_end`, which
strips a trailing space as well — not "exactly one trailing line terminator
and nothing else".  On content `"42 "` the code infers Integer(42), whereas
under the claimed normalization the content would keep its trailing space
(and match no scalar grammar). -/
theorem c8_normalization_counterexample :
    trimEnd "42 " = "42" ∧ specStripOneNewline "42 " = "42 " ∧
    trimEnd "42 " ≠ specStripOneNewline "42 " ∧
    deserialize_any (.file "42 ") [] = .ok (.integer 42) := by
  refine ⟨rfl, rfl, by decide, ?_⟩
  rw [deserialize_any]
  rfl

/-- C8 (amended): before scalar inference the contents are normalized with
`str::trim_end`, stripping ALL trailing whitespace; in particular appending
one `"\n"` to any content never changes the inference result. -/
theorem c8_trailing_newline_normalization (s : String) (path : List String) :
    trimEnd (s ++ "\n") = trimEnd s ∧
    deserialize_any (.file (s ++ "\n")) path = deserialize_any (.file s) path := by
  refine ⟨trimEnd_append_newline s, ?_⟩
  rw [deserialize_any, deserialize_any]
  simp only [inferScalarFile, trimEnd_append_newline s]

/-- C9: `deserialize_array` is independent of the directory listing order,
and a successfully built Array has, at each position `i`, the imploded
value of the child whose name parsed to `i`. -/
theorem c9_order_independence (files files' : List (String × FST))
    (path : List String) (h : files.Perm files') :
    deserialize_array files path = deserialize_array files' path ∧
    ∀ arr, deserialize_array files path = .ok (.array arr) →
      arr.length = files.length ∧
      ∀ i, (hi : i < arr.length) → ∃ name sub,
        (name, sub) ∈ files ∧ parseUsize name = some i ∧
        deserialize_any sub (path ++ [name]) = .ok (arr.get ⟨i, hi⟩) := by
  refine ⟨deserialize_array_perm path h, ?_⟩
  intro arr hok
  obtain ⟨il, hp, hne, hc, hb⟩ := deserialize_array_ok_spec hok
  obtain ⟨vals, hv, hlen, hidx⟩ := buildArr_ok_spec _ path [] arr hb
  have hvals_arr : arr = vals := by simpa using hv
  subst hvals_arr
  have hslen : (sortByKey il).length = files.length := by
    rw [sortByKey, List.length_insertionSort, parseEntries_length hp]
  have harrlen : arr.length = files.length := by
    rw [hlen, hslen]
  refine ⟨harrlen, ?_⟩
  intro i hi
  have hi' : i < (sortByKey il).length := by omega
  obtain ⟨v, hget, hok'⟩ := hidx i hi'
  set x := (sortByKey il).get ⟨i, hi'⟩ with hx
  have hkey : x.1 = i := by
    have h1 := congrArg (fun l => l.get? i) (sortByKey_keys_range hp hne hc)
    simp only [List.get?_eq_getElem?] at h1
    rw [List.getElem?_map, List.getElem?_range (by omega)] at h1
    rw [List.getElem?_eq_getElem hi'] at h1
    simpa [hx] using h1
  have hmem : x ∈ sortByKey il := List.get_mem _ i hi'
  have hmem' : x ∈ il := (List.perm_insertionSort keyLE il).subset hmem
  obtain ⟨hmemf, hparse⟩ := parseEntries_mem hp x hmem'
  refine ⟨x.2.1, x.2.2, hmemf, by rw [hparse, hkey], ?_⟩
  rw [List.getElem?_eq_getElem (by omega : i < arr.length)] at hget
  have hvv : arr.get ⟨i, hi⟩ = v := by
    simp only [List.get_eq_getElem]
    exact Option.some_inj.mp hget
  rw [hvv]
  exact hok'

/-- C9 witness: the two listings of the qualifying set `{"0", "1"}`. -/
theorem c9_order_independence_witness :
    ([("1", FST.file "2"), ("0", FST.file "1")]).Perm
      [("0", FST.file "1"), ("1", FST.file "2")] ∧
    (deserialize_array [("1", FST.file "2"), ("0", FST.file "1")] []
        = deserialize_array [("0", FST.file "1"), ("1", FST.file "2")] [] ∧
     ∀ arr, deserialize_array [("1", FST.file "2"), ("0", FST.file "1")] []
         = .ok (.array arr) →
       arr.length = [("1", FST.file "2"), ("0", FST.file "1")].length ∧
       ∀ i, (hi : i < arr.length) → ∃ name sub,
         (name, sub) ∈ [("1", FST.file "2"), ("0", FST.file "1")] ∧
         parseUsize name = some i ∧
         deserialize_any sub ([] ++ [name]) = .ok (arr.get ⟨i, hi⟩)) :=
  ⟨List.Perm.swap _ _ _,
   c9_order_independence _ _ [] (List.Perm.swap _ _ _)⟩

/-- C10: the String grammar's regex `^"(.+)"$` needs at least one character
between the quotes, so the two-character content `""` is rejected and —
since it matches none of the five grammars — implode reports a
scalar-inference error for a file holding it. -/
theorem c10_empty_quoted_string_rejected :
    deserialize_str "\"\"" = none ∧
    deserialize_str "\"a\"" = some (.string "a") ∧
    ∀ path, deserialize_any (.file "\"\"") path = .err (.scalarInference path) := by
  refine ⟨rfl, rfl, ?_⟩
  intro path
  rw [deserialize_any]
  rfl
